import Mathlib

/-!
Verification of the compress-targets codec: a shallow embedding of the
action codec, board-state codec, value and policy quantizers and the
streaming compression loop from `src/bin/compress.rs`,
`src/bin/decompress.rs` and `src/lib.rs`, together with round-trip and
behavioural theorems for the specification claims.

Modelling conventions:
* machine integers are `Nat`; bytes are naturals below 256; `u16`
  little-endian serialization is explicit `% 256` / `/ 256` arithmetic;
* `f32`/`f64` arithmetic is idealised as exact rational arithmetic (`ℚ`),
  except the natural logarithm inside the policy quantizer, which is
  idealised over `ℝ` via `Real.log`;
* the external crates (`takparse` move and square types, `fast_tak` game
  state, legal-move generation and move application) are not repository
  code; their data is embedded structurally and their functions
  (`possible_moves`, `play`) are parameters of the stream-level
  definitions, as the specification treats them as external collaborators.
-/

namespace CompressTargets

/-- Piece kinds, from the external `takparse` crate: flat stone, standing
wall, or capstone. -/
inductive Piece
  | Flat
  | Wall
  | Cap
deriving DecidableEq

/-- A board square, from `takparse`: a column and a row index (the crate
stores `u8` values; `Square::new(col, row)`). -/
structure Square where
  col : Nat
  row : Nat
deriving DecidableEq

/-- Spread directions, from `takparse`. -/
inductive Direction
  | Up
  | Down
  | Left
  | Right
deriving DecidableEq

/-- A move is a placement of a piece or a spread in a direction with a
drop pattern.  The `takparse` drop pattern is represented by its 8-bit
mask, the exact value exchanged through `Pattern::mask` and
`Pattern::from_mask` in the codec. -/
inductive MoveKind
  | Place (piece : Piece)
  | Spread (direction : Direction) (mask : Nat)
deriving DecidableEq

/-- A move, from `takparse`: a square together with a move kind. -/
structure Move where
  square : Square
  kind : MoveKind
deriving DecidableEq

/-- Little-endian bytes of a 16-bit integer, as produced by
`u16::to_le_bytes` (call sites only pass values below 65536). -/
def le16 (n : Nat) : List Nat := [n % 256, n / 256]

/-- Move encoder, from `write_action` in `compress.rs`.  `none` is the
sentinel entry and encodes as the single byte `0x00`; a move encodes as
two bytes.  The Rust assertion failures (spread mask `0x00`/`0xFF`,
row or column at least 8) are modelled as `none` results. -/
def writeActionBytes : Option Move → Option (List Nat)
  | none => some [0x00]
  | some a =>
    let first? : Option Nat :=
      match a.kind with
      | .Spread _ mask =>
        if mask = 0x00 ∨ mask = 0xFF then none else some mask
      | .Place _ => some 0xFF
    match first? with
    | none => none
    | some first =>
      if a.square.row < 8 ∧ a.square.col < 8 then
        let squareBits := a.square.row * 8 + a.square.col
        let lastTwo : Nat :=
          match a.kind with
          | .Place .Flat => 1
          | .Place .Wall => 2
          | .Place .Cap => 3
          | .Spread .Up _ => 0
          | .Spread .Down _ => 1
          | .Spread .Left _ => 2
          | .Spread .Right _ => 3
        some [first, lastTwo * 64 + squareBits]
      else none

/-- Move decoder, from `read_action` in `decompress.rs`.  Consumes one
byte for the `0x00` sentinel and two bytes otherwise; a truncated input
or an `unreachable!` top-two-bits combination is `none`. -/
def readActionBytes : List Nat → Option (Option Move × List Nat)
  | [] => none
  | p :: rest =>
    if p = 0x00 then
      some (none, rest)
    else
      match rest with
      | [] => none
      | s :: rest2 =>
        let col := s % 8
        let row := s / 8 % 8
        let lastTwo := s / 64
        if p = 0xFF then
          match lastTwo with
          | 1 => some (some ⟨⟨col, row⟩, .Place .Flat⟩, rest2)
          | 2 => some (some ⟨⟨col, row⟩, .Place .Wall⟩, rest2)
          | 3 => some (some ⟨⟨col, row⟩, .Place .Cap⟩, rest2)
          | _ => none
        else
          match lastTwo with
          | 0 => some (some ⟨⟨col, row⟩, .Spread .Up p⟩, rest2)
          | 1 => some (some ⟨⟨col, row⟩, .Spread .Down p⟩, rest2)
          | 2 => some (some ⟨⟨col, row⟩, .Spread .Left p⟩, rest2)
          | 3 => some (some ⟨⟨col, row⟩, .Spread .Right p⟩, rest2)
          | _ => none

/-- A possible drop pattern for a spread: a nonzero mask of one byte,
never `0xFF` (placements have no mask constraint). -/
def MoveKind.maskOk : MoveKind → Bool
  | .Spread _ mask => decide (1 ≤ mask ∧ mask ≤ 0xFE)
  | .Place _ => true

/-- A representable move: in-range coordinates and a possible drop
pattern. -/
def Move.Valid (a : Move) : Prop :=
  a.square.row < 8 ∧ a.square.col < 8 ∧ a.kind.maskOk = true

instance (a : Move) : Decidable a.Valid :=
  inferInstanceAs
    (Decidable (a.square.row < 8 ∧ a.square.col < 8 ∧ a.kind.maskOk = true))

/-- Arithmetic decomposition of the second action byte. -/
private lemma secondByte_decomp (k row col : Nat)
    (hr : row < 8) (hc : col < 8) :
    (k * 64 + (row * 8 + col)) % 8 = col ∧
      (k * 64 + (row * 8 + col)) / 8 % 8 = row ∧
      (k * 64 + (row * 8 + col)) / 64 = k := by
  omega

private lemma writeAction_place (col row : Nat) (piece : Piece)
    (hr : row < 8) (hc : col < 8) :
    writeActionBytes (some ⟨⟨col, row⟩, .Place piece⟩) =
      some [0xFF,
        (match piece with | .Flat => 1 | .Wall => 2 | .Cap => 3) * 64 +
          (row * 8 + col)] := by
  cases piece <;> simp [writeActionBytes, hr, hc]

private lemma writeAction_spread (col row mask : Nat) (d : Direction)
    (hr : row < 8) (hc : col < 8) (h1 : mask ≠ 0) (h2 : mask ≠ 255) :
    writeActionBytes (some ⟨⟨col, row⟩, .Spread d mask⟩) =
      some [mask,
        (match d with | .Up => 0 | .Down => 1 | .Left => 2 | .Right => 3) * 64 +
          (row * 8 + col)] := by
  cases d <;> simp [writeActionBytes, hr, hc, h1, h2]

private lemma action_roundtrip_aux (a : Move) (rest : List Nat)
    (hv : a.Valid) :
    ∃ b1 b2, writeActionBytes (some a) = some [b1, b2] ∧
      b2 % 8 = a.square.col ∧ b2 / 8 % 8 = a.square.row ∧
      readActionBytes (b1 :: b2 :: rest) = some (some a, rest) := by
  obtain ⟨⟨col, row⟩, kind⟩ := a
  simp only [Move.Valid] at hv
  obtain ⟨hr, hc, hm⟩ := hv
  cases kind with
    | Place piece =>
      cases piece
      case Flat =>
        obtain ⟨e1, e2, e3⟩ := secondByte_decomp 1 row col hr hc
        exact ⟨0xFF, 1 * 64 + (row * 8 + col),
          writeAction_place col row .Flat hr hc, e1, e2,
          by simp [readActionBytes, e1, e2, e3]⟩
      case Wall =>
        obtain ⟨e1, e2, e3⟩ := secondByte_decomp 2 row col hr hc
        exact ⟨0xFF, 2 * 64 + (row * 8 + col),
          writeAction_place col row .Wall hr hc, e1, e2,
          by simp [readActionBytes, e1, e2, e3]⟩
      case Cap =>
        obtain ⟨e1, e2, e3⟩ := secondByte_decomp 3 row col hr hc
        exact ⟨0xFF, 3 * 64 + (row * 8 + col),
          writeAction_place col row .Cap hr hc, e1, e2,
          by simp [readActionBytes, e1, e2, e3]⟩
    | Spread d mask =>
      simp only [MoveKind.maskOk, decide_eq_true_eq] at hm
      have h1 : mask ≠ 0 := by omega
      have h2 : mask ≠ 255 := by omega
      cases d
      case Up =>
        obtain ⟨e1, e2, e3⟩ := secondByte_decomp 0 row col hr hc
        have f1 := e1
        have f2 := e2
        have f3 := e3
        simp only [Nat.zero_mul, Nat.zero_add] at f1 f2 f3
        exact ⟨mask, 0 * 64 + (row * 8 + col),
          writeAction_spread col row mask .Up hr hc h1 h2,
          e1, e2,
          by simp [readActionBytes, f1, f2, f3, h1, h2]⟩
      case Down =>
        obtain ⟨e1, e2, e3⟩ := secondByte_decomp 1 row col hr hc
        exact ⟨mask, 1 * 64 + (row * 8 + col),
          writeAction_spread col row mask .Down hr hc h1 h2,
          e1, e2,
          by simp [readActionBytes, e1, e2, e3, h1, h2]⟩
      case Left =>
        obtain ⟨e1, e2, e3⟩ := secondByte_decomp 2 row col hr hc
        exact ⟨mask, 2 * 64 + (row * 8 + col),
          writeAction_spread col row mask .Left hr hc h1 h2,
          e1, e2,
          by simp [readActionBytes, e1, e2, e3, h1, h2]⟩
      case Right =>
        obtain ⟨e1, e2, e3⟩ := secondByte_decomp 3 row col hr hc
        exact ⟨mask, 3 * 64 + (row * 8 + col),
          writeAction_spread col row mask .Right hr hc h1 h2,
          e1, e2,
          by simp [readActionBytes, e1, e2, e3, h1, h2]⟩

/-- C4: every representable move (placements of Flat, Wall or Cap and
spreads with a valid mask in any direction, on a square with row and
column below 8) is encoded as two bytes whose second byte packs column in
the low 3 bits, row in the next 3 bits, and piece kind or direction in
the top 2 bits, and decoding the two bytes restores the move unchanged;
encoding a move whose row or column is at least 8 fails (assertion,
modelled as `none`). -/
theorem C4_action_roundtrip (a : Move) (rest : List Nat) :
    (a.Valid → ∃ b1 b2, writeActionBytes (some a) = some [b1, b2] ∧
        b2 % 8 = a.square.col ∧ b2 / 8 % 8 = a.square.row ∧
        readActionBytes (b1 :: b2 :: rest) = some (some a, rest)) ∧
    (8 ≤ a.square.row ∨ 8 ≤ a.square.col →
      writeActionBytes (some a) = none) := by
  constructor
  · exact action_roundtrip_aux a rest
  · obtain ⟨⟨col, row⟩, kind⟩ := a
    intro h
    have h2 : 8 ≤ row ∨ 8 ≤ col := h
    cases kind with
    | Place piece =>
      have : ¬ (row < 8 ∧ col < 8) := by omega
      cases piece <;> simp [writeActionBytes, this]
    | Spread d mask =>
      have : ¬ (row < 8 ∧ col < 8) := by omega
      by_cases hz : mask = 0 ∨ mask = 255 <;>
        cases d <;> simp [writeActionBytes, this, hz]

/-- Witness for C4: the round trip at a concrete spread and the encoding
failure at a concrete out-of-range placement. -/
theorem C4_action_roundtrip_witness :
    (∃ b1 b2,
        writeActionBytes (some ⟨⟨2, 5⟩, .Spread .Left 0b110⟩) = some [b1, b2] ∧
        b2 % 8 = 2 ∧ b2 / 8 % 8 = 5 ∧
        readActionBytes (b1 :: b2 :: [7, 9]) =
          some (some ⟨⟨2, 5⟩, .Spread .Left 0b110⟩, [7, 9])) ∧
    writeActionBytes (some ⟨⟨1, 8⟩, .Place .Flat⟩) = none :=
  ⟨(C4_action_roundtrip ⟨⟨2, 5⟩, .Spread .Left 0b110⟩ [7, 9]).1 (by decide),
   (C4_action_roundtrip ⟨⟨1, 8⟩, .Place .Flat⟩ []).2 (by decide)⟩

/-- C8: the first byte of every valid move encoding is nonzero
(placements use `0xFF`, spread masks are never `0x00` nor `0xFF`), the
sentinel is written as exactly the single byte `0x00`, and the decoder
decides from the first byte alone, consuming one byte for a sentinel and
two bytes for a move. -/
theorem C8_sentinel_discrimination (a : Move) (hv : a.Valid)
    (rest rest2 : List Nat) (b1 b2 : Nat) :
    (∃ c1 c2, writeActionBytes (some a) = some [c1, c2] ∧ c1 ≠ 0x00) ∧
    writeActionBytes none = some [0x00] ∧
    readActionBytes (0x00 :: rest) = some (none, rest) ∧
    (b1 ≠ 0x00 →
      readActionBytes (b1 :: b2 :: rest2) = none ∨
        ∃ m, readActionBytes (b1 :: b2 :: rest2) = some (some m, rest2)) := by
  obtain ⟨hr, hc, hm⟩ := hv
  refine ⟨?_, rfl, by simp [readActionBytes], ?_⟩
  · obtain ⟨⟨col, row⟩, kind⟩ := a
    cases kind with
    | Place piece =>
      exact ⟨0xFF, _, writeAction_place col row piece hr hc, by decide⟩
    | Spread d mask =>
      simp only [MoveKind.maskOk, decide_eq_true_eq] at hm
      exact ⟨mask, _,
        writeAction_spread col row mask d hr hc (by omega) (by omega),
        by omega⟩
  · intro hb1
    simp only [readActionBytes, if_neg hb1]
    by_cases hp : b1 = 0xFF
    · rw [if_pos hp]
      split
      · exact Or.inr ⟨_, rfl⟩
      · exact Or.inr ⟨_, rfl⟩
      · exact Or.inr ⟨_, rfl⟩
      · exact Or.inl rfl
    · rw [if_neg hp]
      split
      · exact Or.inr ⟨_, rfl⟩
      · exact Or.inr ⟨_, rfl⟩
      · exact Or.inr ⟨_, rfl⟩
      · exact Or.inr ⟨_, rfl⟩
      · exact Or.inl rfl

/-- Witness for C8 at a concrete wall placement, sentinel bytes, and a
nonzero first byte. -/
theorem C8_sentinel_discrimination_witness :
    (∃ c1 c2,
        writeActionBytes (some ⟨⟨1, 2⟩, .Place .Wall⟩) = some [c1, c2] ∧
        c1 ≠ 0x00) ∧
    writeActionBytes none = some [0x00] ∧
    readActionBytes (0x00 :: [3, 4]) = some (none, [3, 4]) ∧
    (readActionBytes (0xFF :: 64 :: [9]) = none ∨
      ∃ m, readActionBytes (0xFF :: 64 :: [9]) = some (some m, [9])) := by
  have h := C8_sentinel_discrimination ⟨⟨1, 2⟩, .Place .Wall⟩ (by decide)
    [3, 4] [9] 0xFF 64
  exact ⟨h.1, h.2.1, h.2.2.1, h.2.2.2 (by decide)⟩

/-- Value quantization, from `write_value` in `compress.rs`:
`round(((v + 1) / 2) * 65535)`, with `f64` idealised as `ℚ` (the Rust
`round` on the nonnegative argument agrees with `round` on `ℚ`). -/
def quantizeValue (v : ℚ) : ℤ := round ((v + 1) / 2 * 65535)

/-- Value encoder, from `write_value` in `compress.rs`: the assertions
`value >= -1.0` and `value <= 1.0` are modelled as a `none` result, then
the quantized value is written as two little-endian bytes. -/
def writeValueBytes (v : ℚ) : Option (List Nat) :=
  if -1 ≤ v ∧ v ≤ 1 then some (le16 (quantizeValue v).toNat) else none

/-- Value decoder, from `read_value` in `decompress.rs`: reads two bytes
as a little-endian 16-bit integer `u` and returns `u / 65535 * 2 - 1`. -/
def readValueBytes : List Nat → Option (ℚ × List Nat)
  | b1 :: b2 :: rest => some (((b1 + 256 * b2 : ℚ) / 65535) * 2 - 1, rest)
  | _ => none

private lemma quantizeValue_mono {v w : ℚ} (h : v ≤ w) :
    quantizeValue v ≤ quantizeValue w := by
  unfold quantizeValue
  rw [round_eq, round_eq]
  exact Int.floor_le_floor (by linarith)

private lemma quantizeValue_nonneg {v : ℚ} (h : -1 ≤ v) :
    0 ≤ quantizeValue v := by
  have h0 : (0 : ℤ) = round ((-1 + 1 : ℚ) / 2 * 65535) := by norm_num
  rw [h0]
  exact quantizeValue_mono h

private lemma readValue_le16 (n : Nat) (rest : List Nat) :
    readValueBytes (le16 n ++ rest) = some ((n : ℚ) / 65535 * 2 - 1, rest) := by
  simp only [le16, List.cons_append, List.nil_append, readValueBytes]
  have h2 : 256 * (n / 256) + n % 256 = n := Nat.div_add_mod n 256
  have h : ((n % 256 : Nat) : ℚ) + 256 * ((n / 256 : Nat) : ℚ) = (n : ℚ) := by
    have h3 : ((256 * (n / 256) + n % 256 : Nat) : ℚ) = (n : ℚ) := by
      exact_mod_cast congrArg (Nat.cast : Nat → ℚ) h2
    push_cast at h3
    linarith
  rw [h]

/-- C5: the value quantizer encodes every `v` in `[-1, 1]` as
`round(((v + 1) / 2) * 65535)` written little-endian, decodes `u` as
`u / 65535 * 2 - 1`, fails (assertion, modelled as `none`) on input
outside `[-1, 1]`, both directions are monotonic, and the round trip
reconstructs `v` within `1 / 65535` absolute error. -/
theorem C5_value_roundtrip (v w : ℚ) (rest : List Nat)
    (hv1 : -1 ≤ v) (hv2 : v ≤ 1) (hvw : v ≤ w) :
    (∀ u : ℚ, u < -1 ∨ 1 < u → writeValueBytes u = none) ∧
    quantizeValue v ≤ quantizeValue w ∧
    (∀ n m : Nat, n ≤ m →
      ∃ x y, readValueBytes (le16 n ++ rest) = some (x, rest) ∧
        readValueBytes (le16 m ++ rest) = some (y, rest) ∧ x ≤ y) ∧
    ∃ bytes v2, writeValueBytes v = some bytes ∧
      readValueBytes (bytes ++ rest) = some (v2, rest) ∧
      |v2 - v| ≤ 1 / 65535 := by
  refine ⟨?_, quantizeValue_mono hvw, ?_, ?_⟩
  · intro u hu
    have hne : ¬ (-1 ≤ u ∧ u ≤ 1) := by
      rintro ⟨h1, h2⟩
      rcases hu with h | h <;> linarith
    simp [writeValueBytes, hne]
  · intro n m hnm
    refine ⟨_, _, readValue_le16 n rest, readValue_le16 m rest, ?_⟩
    have hc : (n : ℚ) ≤ (m : ℚ) := by exact_mod_cast hnm
    have hd : (n : ℚ) / 65535 ≤ (m : ℚ) / 65535 := by gcongr
    linarith
  · have hq0 : 0 ≤ quantizeValue v := quantizeValue_nonneg hv1
    have hwrite : writeValueBytes v = some (le16 (quantizeValue v).toNat) := by
      simp [writeValueBytes, hv1, hv2]
    refine ⟨le16 (quantizeValue v).toNat, _, hwrite,
      readValue_le16 _ rest, ?_⟩
    have hcast : (((quantizeValue v).toNat : Nat) : ℚ) = ((quantizeValue v : ℤ) : ℚ) := by
      exact_mod_cast congrArg (Int.cast : ℤ → ℚ) (Int.toNat_of_nonneg hq0)
    rw [hcast]
    have habs : |(v + 1) / 2 * 65535 - ((quantizeValue v : ℤ) : ℚ)| ≤ 1 / 2 :=
      abs_sub_round ((v + 1) / 2 * 65535)
    have hdiff : ((quantizeValue v : ℤ) : ℚ) / 65535 * 2 - 1 - v =
        (((quantizeValue v : ℤ) : ℚ) - (v + 1) / 2 * 65535) * 2 / 65535 := by
      ring
    rw [hdiff]
    rw [abs_div, abs_mul, abs_sub_comm]
    have h2 : |(2 : ℚ)| = 2 := by norm_num
    have h65535 : |(65535 : ℚ)| = 65535 := by norm_num
    rw [h2, h65535]
    calc |(v + 1) / 2 * 65535 - ((quantizeValue v : ℤ) : ℚ)| * 2 / 65535
        ≤ 1 / 2 * 2 / 65535 := by gcongr
      _ = 1 / 65535 := by norm_num

/-- Modelled from the spec: a stack of the external fast_tak crate holds
the kind of its top piece and the owner colors of its pieces from bottom
to top (`true` = White, the first player).  `Stack::top` yields the piece
kind with the topmost color, `Stack::exact` rebuilds a stack from a piece
kind and a color sequence, and the colors iterator yields owners bottom
to top — the iteration order is fixed this way because §4.4 requires the
order to be chosen consistently with the decoder's stack-construction
primitive so that the bottom-to-top sequence round trips. -/
structure Stack where
  piece : Piece
  colors : List Bool
deriving DecidableEq

/-- Modelled from the spec: the external fast_tak game state, restricted
to the fields the codec reads — the board as a row-major list of
`N * N` optional stacks (`read_state` writes square `i` at row `i / N`,
column `i % N`, the same row-major traversal `write_state` reads), the
side to move (`true` = White) and the reversibility counter that the
delta predictor overwrites.  Fields the codec never reads nor compares
(ply count, reserves, komi) are omitted. -/
structure Game where
  board : List (Option Stack)
  toMove : Bool
  reversiblePlies : Nat
deriving DecidableEq

/-- Value of one output byte from up to 8 bits, least significant bit
first, as the `bitvec` crate packs an `Lsb0` bit vector into bytes. -/
def byteOfBits (bs : List Bool) : Nat :=
  bs.foldr (fun b acc => 2 * acc + cond b 1 0) 0

/-- Pack a bit sequence into bytes, 8 bits per byte, least significant
bit first, the final partial byte zero-padded: `BitVec::into_vec` on the
`Lsb0` bit vector built by `write_state`. -/
def bitsToBytes (bs : List Bool) : List Nat :=
  match bs with
  | [] => []
  | b :: rest => byteOfBits (b :: rest.take 7) :: bitsToBytes (rest.drop 7)
termination_by bs.length
decreasing_by simp; omega

/-- Unpack bytes into bits, 8 bits per byte, least significant bit first:
the `BitIterator` of `decompress.rs` yields `(byte >> i) & 1 != 0` for
`i = 0..8` before pulling the next byte. -/
def bytesToBits (bytes : List Nat) : List Bool :=
  bytes.flatMap fun byte => (List.range 8).map byte.testBit

/-- Read one bit from the bit cursor; `none` is a truncated stream. -/
def readBit : List Bool → Option (Bool × List Bool)
  | [] => none
  | b :: rest => some (b, rest)

/-- Read `n` bits from the bit cursor. -/
def readBits : Nat → List Bool → Option (List Bool × List Bool)
  | 0, bs => some ([], bs)
  | n + 1, bs => do
    let (b, bs1) ← readBit bs
    let (l, bs2) ← readBits n bs1
    some (b :: l, bs2)

/-- Stack-height bits, least significant first:
`BitVec::from_element(size as u8)` truncated to 7 bits. -/
def natBits7 (n : Nat) : List Bool := (List.range 7).map n.testBit

/-- Stack-height decoding, from `read_state`: seven iterations of
`size |= bit << 7; size >>= 1` over a `u8`. -/
def sizeOfBits (bs : List Bool) : Nat :=
  bs.foldl (fun s b => (s ||| cond b 128 0) / 2) 0

/-- Piece-kind bits, from `write_state`: a flat is the single
non-blocking bit; a wall is blocking and not road-capable; a capstone is
blocking and road-capable. -/
def pieceBits : Piece → List Bool
  | .Flat => [false]
  | .Wall => [true, false]
  | .Cap => [true, true]

/-- Bits of one square, from the loop body of `write_state`: one
occupancy bit (an empty stack, `Stack::top` equal to `None`, is
unoccupied); if occupied the piece bits, then either a small-stack
marker with the single color bit, or a large-stack marker, seven height
bits (the assertion `stack.size() < 128` modelled as `none`) and one
color bit per piece in the order of the colors iterator, bottom to
top. -/
def squareBits : Option Stack → Option (List Bool)
  | none => some [false]
  | some s =>
    match s.colors.getLast? with
    | none => some [false]
    | some topColor =>
      if 1 < s.colors.length then
        if s.colors.length < 128 then
          some (true :: (pieceBits s.piece ++
            (true :: (natBits7 s.colors.length ++ s.colors))))
        else none
      else
        some (true :: (pieceBits s.piece ++ [false, topColor]))

/-- Bits of the whole board, squares in row-major order, from the
`write_state` loop. -/
def boardBits : List (Option Stack) → Option (List Bool)
  | [] => some []
  | sq :: rest => do
    let b ← squareBits sq
    let r ← boardBits rest
    some (b ++ r)

/-- Board-state serializer at the bit level, from `write_state` in
`compress.rs`: the side-to-move bit (White = `true`), then the bits of
every square. -/
def writeStateBits (g : Game) : Option (List Bool) := do
  let bb ← boardBits g.board
  some (g.toMove :: bb)

/-- Board-state serializer at the byte level: the bit vector packed into
bytes, as `write_state` flushes `BitVec::into_vec`. -/
def writeStateBytes (g : Game) : Option (List Nat) :=
  (writeStateBits g).map bitsToBytes

/-- Decode one square, from the loop body of `read_state` in
`decompress.rs`.  The colors of a large stack are pushed in bit-stream
order, bottom first: the `.rev()` in the source reverses only the index
range of a lazily evaluated `map` whose closure ignores its argument and
pulls the shared bit cursor, so the pushed sequence equals the read
sequence. -/
def readSquare (bs0 : List Bool) : Option (Option Stack × List Bool) := do
  let (occupied, bs1) ← readBit bs0
  if occupied then
    let (blocking, bs2) ← readBit bs1
    let (road, bs3) ← if blocking then readBit bs2 else some (true, bs2)
    let piece ←
      match blocking, road with
      | false, true => some Piece.Flat
      | true, false => some Piece.Wall
      | true, true => some Piece.Cap
      | false, false => none
    let (big, bs4) ← readBit bs3
    if big then
      let (sizeBits, bs5) ← readBits 7 bs4
      let size := sizeOfBits sizeBits
      if size < 128 then
        let (colorBits, bs6) ← readBits size bs5
        some (some ⟨piece, colorBits⟩, bs6)
      else none
    else
      let (white, bs5) ← readBit bs4
      some (some ⟨piece, [white]⟩, bs5)
  else
    some (none, bs1)

/-- Decode `n` squares in row-major order. -/
def readSquares : Nat → List Bool → Option (List (Option Stack) × List Bool)
  | 0, bs => some ([], bs)
  | n + 1, bs => do
    let (sq, bs1) ← readSquare bs
    let (rest, bs2) ← readSquares n bs1
    some (sq :: rest, bs2)

/-- Board-state deserializer at the bit level, from `read_state`: the
side-to-move bit then `N * N` squares; the decoded game carries the
default reversibility counter, since `Game::from_board_and_to_move`
rebuilds every field other than the board and the side to move. -/
def readStateBits (n : Nat) (bs : List Bool) : Option (Game × List Bool) := do
  let (toMove, bs1) ← readBit bs
  let (board, bs2) ← readSquares (n * n) bs1
  some (⟨board, toMove, 0⟩, bs2)

/-- Board-state deserializer at the byte level: the `BitIterator` pulls
whole bytes lazily, so decoding resumes at the next byte boundary after
the consumed bits. -/
def readStateBytes (n : Nat) (bytes : List Nat) : Option (Game × List Nat) := do
  let bits := bytesToBits bytes
  let (g, rem) ← readStateBits n bits
  let consumed := bits.length - rem.length
  some (g, bytes.drop ((consumed + 7) / 8))

/-- A legal stack for serialization: nonempty and of height below 128. -/
def SquareOk : Option Stack → Prop
  | none => True
  | some s => s.colors ≠ [] ∧ s.colors.length < 128

instance : (sq : Option Stack) → Decidable (SquareOk sq)
  | none => .isTrue trivial
  | some s =>
    inferInstanceAs (Decidable (s.colors ≠ [] ∧ s.colors.length < 128))

private lemma byteOfBits_cons (b : Bool) (t : List Bool) :
    byteOfBits (b :: t) = 2 * byteOfBits t + cond b 1 0 := rfl

private lemma testBit_byteOfBits (c : List Bool) (i : Nat) :
    (byteOfBits c).testBit i = c.getD i false := by
  induction c generalizing i with
  | nil =>
    simp [byteOfBits, Nat.zero_testBit]
  | cons b t ih =>
    cases i with
    | zero =>
      rw [byteOfBits_cons, Nat.testBit_zero, List.getD_cons_zero]
      cases b <;> simp <;> omega
    | succ j =>
      rw [byteOfBits_cons, Nat.testBit_succ, List.getD_cons_succ]
      have hdiv : (2 * byteOfBits t + cond b 1 0) / 2 = byteOfBits t := by
        cases b <;> simp <;> omega
      rw [hdiv, ih]

private lemma range8_testBit (c : List Bool) (hc : c.length ≤ 8) :
    (List.range 8).map (byteOfBits c).testBit =
      c ++ List.replicate (8 - c.length) false := by
  apply List.ext_getElem
  · simp
    omega
  · intro i h1 h2
    simp only [List.getElem_map, List.getElem_range, testBit_byteOfBits]
    simp only [List.length_map, List.length_range] at h1
    rcases Nat.lt_or_ge i c.length with h | h
    · rw [List.getD_eq_getElem _ _ h, List.getElem_append_left h]
    · rw [List.getD_eq_default _ _ h, List.getElem_append_right h,
        List.getElem_replicate]

private lemma bitsToBytes_length (bs : List Bool) :
    (bitsToBytes bs).length = (bs.length + 7) / 8 := by
  induction bs using bitsToBytes.induct with
  | case1 => simp [bitsToBytes]
  | case2 b rest ih =>
    rw [bitsToBytes]
    simp only [List.length_cons, ih, List.length_drop]
    omega

private lemma bytesToBits_append (xs ys : List Nat) :
    bytesToBits (xs ++ ys) = bytesToBits xs ++ bytesToBits ys := by
  simp [bytesToBits, List.flatMap_append]

private lemma bytesToBits_cons (x : Nat) (xs : List Nat) :
    bytesToBits (x :: xs) = (List.range 8).map x.testBit ++ bytesToBits xs := by
  simp [bytesToBits]

private lemma bytesToBits_bitsToBytes (bs : List Bool) :
    bytesToBits (bitsToBytes bs) =
      bs ++ List.replicate ((bitsToBytes bs).length * 8 - bs.length) false := by
  induction bs using bitsToBytes.induct with
  | case1 => simp [bitsToBytes, bytesToBits]
  | case2 b rest ih =>
    have hnil : bitsToBytes ([] : List Bool) = [] := by simp [bitsToBytes]
    conv_lhs => rw [bitsToBytes]
    conv_rhs => rw [bitsToBytes]
    rw [bytesToBits_cons, ih, range8_testBit _ (by simp)]
    rcases Nat.lt_or_ge rest.length 7 with h | h
    · have htake : rest.take 7 = rest := List.take_of_length_le (by omega)
      have hdrop : rest.drop 7 = [] := List.drop_eq_nil_of_le (by omega)
      rw [htake, hdrop, hnil]
      simp only [List.length_nil, List.length_cons, Nat.zero_mul, Nat.sub_zero,
        List.replicate_zero, List.append_nil, List.nil_append]
    · have hlen7 : (rest.take 7).length = 7 := by
        simp only [List.length_take]
        omega
      have h0 : 8 - ((b :: rest.take 7) : List Bool).length = 0 := by
        simp [hlen7]
      rw [h0]
      simp only [List.replicate_zero, List.append_nil]
      have hsplit : ∀ z : List Bool,
          (b :: rest.take 7) ++ (rest.drop 7 ++ z) = (b :: rest) ++ z := by
        intro z
        simp only [List.cons_append]
        rw [← List.append_assoc, List.take_append_drop]
      have hAB : (bitsToBytes (rest.drop 7)).length * 8 - (rest.drop 7).length =
          (byteOfBits (b :: rest.take 7) :: bitsToBytes (rest.drop 7)).length * 8 -
            (b :: rest).length := by
        simp only [List.length_cons, List.length_drop]
        omega
      rw [← hAB, hsplit]

private lemma readBits_exact (l rest : List Bool) :
    readBits l.length (l ++ rest) = some (l, rest) := by
  induction l with
  | nil => rfl
  | cons b t ih => simp [readBits, readBit, ih]

private lemma natBits7_length (n : Nat) : (natBits7 n).length = 7 := by
  simp [natBits7]

private lemma sizeOfBits_natBits7 {n : Nat} (h : n < 128) :
    sizeOfBits (natBits7 n) = n := by
  have hall : ∀ m, m < 128 → sizeOfBits (natBits7 m) = m := by decide
  exact hall n h

private lemma readBits_seven (l X : List Bool) (h : l.length = 7) :
    readBits 7 (l ++ X) = some (l, X) := by
  have hx := readBits_exact l X
  rwa [h] at hx

private lemma readSquare_squareBits (sq : Option Stack) (hok : SquareOk sq)
    {bits : List Bool} (hw : squareBits sq = some bits) (rest : List Bool) :
    readSquare (bits ++ rest) = some (sq, rest) := by
  cases sq with
  | none =>
    have hb : bits = [false] := by
      simpa [squareBits] using hw.symm
    subst hb
    simp [readSquare, readBit]
  | some s =>
    obtain ⟨piece, colors⟩ := s
    obtain ⟨hne, hlt⟩ := hok
    match colors, hne, hlt with
    | [c], _, _ =>
      have hb : bits = true :: (pieceBits piece ++ [false, c]) := by
        simpa [squareBits] using hw.symm
      subst hb
      cases piece <;> simp [readSquare, readBit, pieceBits]
    | c1 :: c2 :: cs, _, hlt =>
      have hlt2 : (c1 :: c2 :: cs).length < 128 := hlt
      cases hlast : (c1 :: c2 :: cs).getLast? with
      | none => simp at hlast
      | some tc =>
        have hlen : 1 < (c1 :: c2 :: cs).length := by simp
        have hb : bits = true :: (pieceBits piece ++
            (true :: (natBits7 (c1 :: c2 :: cs).length ++ (c1 :: c2 :: cs)))) := by
          simp only [squareBits, hlast] at hw
          rw [if_pos hlen, if_pos hlt2] at hw
          exact (Option.some_inj.mp hw).symm
        subst hb
        have h7 := readBits_seven (natBits7 (c1 :: c2 :: cs).length)
          ((c1 :: c2 :: cs) ++ rest) (natBits7_length _)
        have hsz := sizeOfBits_natBits7 hlt2
        have hcols := readBits_exact (c1 :: c2 :: cs) rest
        have hlt3 := hlt2
        simp only [List.length_cons, List.cons_append, List.append_assoc]
          at h7 hsz hcols hlt3
        cases piece <;>
          simp [readSquare, readBit, pieceBits, h7, hsz, hlt3, hcols]

private lemma squareBits_isSome (sq : Option Stack) (hok : SquareOk sq) :
    ∃ b, squareBits sq = some b := by
  cases sq with
  | none => exact ⟨[false], rfl⟩
  | some s =>
    obtain ⟨piece, colors⟩ := s
    obtain ⟨hne, hlt⟩ := hok
    match colors, hne, hlt with
    | [c], _, _ =>
      exact ⟨true :: (pieceBits piece ++ [false, c]), by simp [squareBits]⟩
    | c1 :: c2 :: cs, _, hlt =>
      have hlt2 : (c1 :: c2 :: cs).length < 128 := hlt
      cases hlast : (c1 :: c2 :: cs).getLast? with
      | none => simp at hlast
      | some tc =>
        have hlen : 1 < (c1 :: c2 :: cs).length := by simp
        refine ⟨true :: (pieceBits piece ++
          (true :: (natBits7 (c1 :: c2 :: cs).length ++ (c1 :: c2 :: cs)))), ?_⟩
        simp only [squareBits, hlast]
        rw [if_pos hlen, if_pos hlt2]

private lemma boardBits_isSome (board : List (Option Stack))
    (hok : ∀ sq ∈ board, SquareOk sq) :
    ∃ bits, boardBits board = some bits := by
  induction board with
  | nil => exact ⟨[], rfl⟩
  | cons sq tail ih =>
    obtain ⟨b, hb⟩ := squareBits_isSome sq (hok sq (by simp))
    obtain ⟨r, hr⟩ := ih (fun x hx => hok x (by simp [hx]))
    exact ⟨b ++ r, by simp [boardBits, hb, hr]⟩

private lemma readSquares_boardBits (board : List (Option Stack))
    (hok : ∀ sq ∈ board, SquareOk sq) {bits : List Bool}
    (hw : boardBits board = some bits) (rest : List Bool) :
    readSquares board.length (bits ++ rest) = some (board, rest) := by
  induction board generalizing bits with
  | nil =>
    have hb : bits = [] := by simpa [boardBits] using hw.symm
    subst hb
    rfl
  | cons sq tail ih =>
    cases hsq : squareBits sq with
    | none => simp [boardBits, hsq] at hw
    | some b =>
      cases ht : boardBits tail with
      | none => simp [boardBits, hsq, ht] at hw
      | some r =>
        have hb : bits = b ++ r := by
          rw [boardBits] at hw
          simp only [hsq, ht, Option.bind_eq_bind, Option.some_bind] at hw
          exact (Option.some_inj.mp hw).symm
        subst hb
        have h1 := readSquare_squareBits sq (hok sq (by simp)) hsq (r ++ rest)
        have h2 := ih (fun x hx => hok x (by simp [hx])) ht
        simp only [List.length_cons, readSquares, List.append_assoc]
        simp [h1, h2]

private lemma readStateBits_writeStateBits (n : Nat) (g : Game)
    (hlen : g.board.length = n * n)
    (hok : ∀ sq ∈ g.board, SquareOk sq) {bits : List Bool}
    (hw : writeStateBits g = some bits) (rest : List Bool) :
    readStateBits n (bits ++ rest) = some (⟨g.board, g.toMove, 0⟩, rest) := by
  cases hbb : boardBits g.board with
  | none => simp [writeStateBits, hbb] at hw
  | some bb =>
    have hb : bits = g.toMove :: bb := by
      simp only [writeStateBits, hbb, Option.bind_eq_bind, Option.some_bind]
        at hw
      exact (Option.some_inj.mp hw).symm
    subst hb
    have h1 := readSquares_boardBits g.board hok hbb rest
    rw [hlen] at h1
    simp [readStateBits, readBit, h1]

private lemma readStateBytes_writeStateBytes (n : Nat) (g : Game)
    (hlen : g.board.length = n * n) (hok : ∀ sq ∈ g.board, SquareOk sq)
    {bytes : List Nat} (hw : writeStateBytes g = some bytes)
    (rest : List Nat) :
    readStateBytes n (bytes ++ rest) = some (⟨g.board, g.toMove, 0⟩, rest) := by
  cases hbits : writeStateBits g with
  | none => simp [writeStateBytes, hbits] at hw
  | some bits =>
    have hb : bytes = bitsToBytes bits := by
      simp only [writeStateBytes, hbits, Option.map_some'] at hw
      exact (Option.some_inj.mp hw).symm
    subst hb
    have hsplit : bytesToBits (bitsToBytes bits ++ rest) =
        bits ++ (List.replicate ((bitsToBytes bits).length * 8 - bits.length)
          false ++ bytesToBits rest) := by
      rw [bytesToBits_append, bytesToBits_bitsToBytes, List.append_assoc]
    have hread := readStateBits_writeStateBits n g hlen hok hbits
      (List.replicate ((bitsToBytes bits).length * 8 - bits.length) false ++
        bytesToBits rest)
    simp only [readStateBytes, hsplit, hread, Option.bind_eq_bind,
      Option.some_bind]
    have hcount : (bits ++
          (List.replicate ((bitsToBytes bits).length * 8 - bits.length) false ++
            bytesToBits rest)).length -
        (List.replicate ((bitsToBytes bits).length * 8 - bits.length) false ++
          bytesToBits rest).length = bits.length := by
      simp [List.length_append]
    rw [hcount, show (bits.length + 7) / 8 = (bitsToBytes bits).length from
      (bitsToBytes_length bits).symm, List.drop_left]

/-- C1: for every position with board size N in 3..8, every square
holding an arbitrary legal stack (nonempty, height below 128, any top
piece kind) and either side to move, decoding the output of the
board-state serializer yields a position board-equal to the original,
including the full bottom-to-top stack color sequence of every square,
not just the top piece. -/
theorem C1_state_roundtrip (n : Nat) (g : Game) (rest : List Nat)
    (hn1 : 3 ≤ n) (hn2 : n ≤ 8) (hlen : g.board.length = n * n)
    (hok : ∀ sq ∈ g.board, SquareOk sq) :
    ∃ bytes g2, writeStateBytes g = some bytes ∧
      readStateBytes n (bytes ++ rest) = some (g2, rest) ∧
      g2.board = g.board ∧ g2.toMove = g.toMove := by
  obtain ⟨bb, hbb⟩ := boardBits_isSome g.board hok
  have hw : writeStateBytes g = some (bitsToBytes (g.toMove :: bb)) := by
    simp [writeStateBytes, writeStateBits, hbb]
  exact ⟨_, _, hw, readStateBytes_writeStateBytes n g hlen hok hw rest,
    rfl, rfl⟩

/-- Witness for C1: a concrete 3 by 3 position holding a three-piece
capstone stack, a lone flat and a lone wall. -/
theorem C1_state_roundtrip_witness :
    ∃ bytes g2,
      writeStateBytes ⟨[none, some ⟨.Cap, [true, false, true]⟩, none,
          some ⟨.Flat, [false]⟩, none, none, some ⟨.Wall, [true]⟩, none,
          none], true, 5⟩ = some bytes ∧
      readStateBytes 3 (bytes ++ [7, 8]) = some (g2, [7, 8]) ∧
      g2.board = [none, some ⟨.Cap, [true, false, true]⟩, none,
          some ⟨.Flat, [false]⟩, none, none, some ⟨.Wall, [true]⟩, none,
          none] ∧ g2.toMove = true :=
  C1_state_roundtrip 3
    ⟨[none, some ⟨.Cap, [true, false, true]⟩, none, some ⟨.Flat, [false]⟩,
      none, none, some ⟨.Wall, [true]⟩, none, none], true, 5⟩ [7, 8]
    (by decide) (by decide) (by decide) (by decide)

/-- Witness for C5 at the concrete value one half. -/
theorem C5_value_roundtrip_witness :
    ∃ bytes v2, writeValueBytes (1 / 2) = some bytes ∧
      readValueBytes (bytes ++ [7]) = some (v2, [7]) ∧
      |v2 - 1 / 2| ≤ 1 / 65535 :=
  (C5_value_roundtrip (1 / 2) (3 / 4) [7] (by norm_num) (by norm_num)
    (by norm_num)).2.2.2

/-- Minimum representable probability, the constant `MIN_PROBABILITY`
from `lib.rs` (`1e-5`). -/
def MIN_PROBABILITY : ℚ := 1 / 100000

/-- Pre-normalization policy completion, from the decode loop of
`decompress.rs`: every legal move of the decoded position (the list
produced by the external `possible_moves`, taken as a parameter) is
paired with its decoded probability, or with `MIN_PROBABILITY` when the
decoded list holds no entry for it. -/
def completedRaw (legal : List Move) (policy : List (Move × ℚ)) :
    List (Move × ℚ) :=
  legal.map fun a =>
    match policy.find? (fun e => e.1 == a) with
    | some x => x
    | none => (a, MIN_PROBABILITY)

/-- Decoded-policy completion and renormalization, from the decode loop
of `decompress.rs`: the completed list divided entrywise by its
probability sum. -/
def completePolicy (legal : List Move) (policy : List (Move × ℚ)) :
    List (Move × ℚ) :=
  let completed := completedRaw legal policy
  let s := (completed.map (·.2)).sum
  completed.map fun e => (e.1, e.2 / s)

private lemma sum_map_div_eq (l : List ℚ) (s : ℚ) :
    (l.map (· / s)).sum = l.sum / s := by
  induction l with
  | nil => simp
  | cons x t ih => simp [ih, add_div]

private lemma completedRaw_fst (legal : List Move)
    (policy : List (Move × ℚ)) :
    (completedRaw legal policy).map (·.1) = legal := by
  induction legal with
  | nil => rfl
  | cons a t ih =>
    simp only [completedRaw, List.map_cons] at ih ⊢
    refine congrArg₂ _ ?_ ih
    cases hf : policy.find? (fun e => e.1 == a) with
    | none => rfl
    | some x =>
      have := List.find?_some hf
      exact beq_iff_eq.mp this

private lemma completedRaw_pos (legal : List Move)
    (policy : List (Move × ℚ)) (hpos : ∀ e ∈ policy, 0 < e.2) :
    ∀ e ∈ completedRaw legal policy, 0 < e.2 := by
  intro e he
  obtain ⟨a, _, hfa⟩ := List.mem_map.mp he
  cases hf : policy.find? (fun x => x.1 == a) with
  | none =>
    rw [hf] at hfa
    simp only at hfa
    rw [← hfa]
    norm_num [MIN_PROBABILITY]
  | some x =>
    rw [hf] at hfa
    simp only at hfa
    rw [← hfa]
    exact hpos x (List.mem_of_find?_eq_some hf)

/-- C7: after decoding the policy entries of a position, every legal move
absent from the decoded list is inserted with probability
`MIN_PROBABILITY`, the completed list is renormalized so the
probabilities sum to one (exactly, in the rational idealisation of the
floating-point tolerance), and the final policy contains exactly the
legal-move list of the position in order — no extra moves and no missing
moves. -/
theorem C7_policy_renormalization (legal : List Move)
    (policy : List (Move × ℚ))
    (hpos : ∀ e ∈ policy, 0 < e.2) (hne : legal ≠ []) :
    (completePolicy legal policy).map (·.1) = legal ∧
    ((completePolicy legal policy).map (·.2)).sum = 1 ∧
    ∀ a ∈ legal, policy.find? (fun e => e.1 == a) = none →
      (a, MIN_PROBABILITY) ∈ completedRaw legal policy := by
  have hraw := completedRaw_fst legal policy
  have hsum : 0 < ((completedRaw legal policy).map (·.2)).sum := by
    apply List.sum_pos
    · intro x hx
      obtain ⟨e, he, hex⟩ := List.mem_map.mp hx
      rw [← hex]
      exact completedRaw_pos legal policy hpos e he
    · intro hnil
      apply hne
      have : completedRaw legal policy = [] := by
        cases hcc : completedRaw legal policy with
        | nil => rfl
        | cons x t => rw [hcc] at hnil; simp at hnil
      rw [← hraw, this]
      rfl
  refine ⟨?_, ?_, ?_⟩
  · conv_rhs => rw [← hraw]
    simp [completePolicy, List.map_map, Function.comp]
  · have hmm : ((completePolicy legal policy).map (·.2)) =
        ((completedRaw legal policy).map (·.2)).map
          (· / ((completedRaw legal policy).map (·.2)).sum) := by
      simp [completePolicy]
    rw [hmm, sum_map_div_eq, div_self (ne_of_gt hsum)]
  · intro a ha hf
    apply List.mem_map.mpr
    refine ⟨a, ha, ?_⟩
    simp only [hf]

/-- Witness for C7: two concrete legal placements, one decoded entry. -/
theorem C7_policy_renormalization_witness :
    (completePolicy [⟨⟨0, 0⟩, .Place .Flat⟩, ⟨⟨1, 0⟩, .Place .Flat⟩]
        [(⟨⟨0, 0⟩, .Place .Flat⟩, (1 : ℚ) / 2)]).map (·.1) =
      [⟨⟨0, 0⟩, .Place .Flat⟩, ⟨⟨1, 0⟩, .Place .Flat⟩] ∧
    ((completePolicy [⟨⟨0, 0⟩, .Place .Flat⟩, ⟨⟨1, 0⟩, .Place .Flat⟩]
        [(⟨⟨0, 0⟩, .Place .Flat⟩, (1 : ℚ) / 2)]).map (·.2)).sum = 1 ∧
    ∀ a ∈ [⟨⟨0, 0⟩, .Place .Flat⟩, ⟨⟨1, 0⟩, .Place .Flat⟩],
      List.find? (fun e => e.1 == a) [(⟨⟨0, 0⟩, .Place .Flat⟩, (1 : ℚ) / 2)] =
          none →
        (a, MIN_PROBABILITY) ∈
          completedRaw [⟨⟨0, 0⟩, .Place .Flat⟩, ⟨⟨1, 0⟩, .Place .Flat⟩]
            [(⟨⟨0, 0⟩, .Place .Flat⟩, (1 : ℚ) / 2)] :=
  C7_policy_renormalization
    [⟨⟨0, 0⟩, .Place .Flat⟩, ⟨⟨1, 0⟩, .Place .Flat⟩]
    [(⟨⟨0, 0⟩, .Place .Flat⟩, (1 : ℚ) / 2)]
    (by
      rintro e he
      simp only [List.mem_singleton] at he
      subst he
      norm_num)
    (by simp)

/-- The constant `LOG_MIN` from `lib.rs`: the hardcoded `f64` literal
`-11.512925464970229`, an approximation of `ln(1e-5)`. -/
def LOG_MIN : ℚ := -(11512925464970229 / 1000000000000000)

/-- Policy-entry quantization, from `write_policy` in `compress.rs`:
`round((ln p / LOG_MIN) * 65535)`, the `f64` natural logarithm idealised
as `Real.log`. -/
noncomputable def quantizeLogProb (p : ℚ) : ℤ :=
  round (Real.log (p : ℝ) / (LOG_MIN : ℝ) * 65535)

open Classical in
/-- Policy encoder, from `write_policy` in `compress.rs`: an entry whose
probability is below `MIN_PROBABILITY` is skipped entirely (no bytes);
any other entry is written as its two-byte action code followed by the
little-endian 16-bit quantized log-probability, with the assertions
`log_prob <= 0.0` and `log_prob >= LOG_MIN` modelled as `none`; the
policy ends with the single sentinel byte `0x00` and no trailing
probability bytes. -/
noncomputable def writePolicyBytes : List (Move × ℚ) → Option (List Nat)
  | [] => some [0x00]
  | (a, p) :: rest =>
    if p < MIN_PROBABILITY then writePolicyBytes rest
    else
      if Real.log (p : ℝ) ≤ 0 ∧ ((LOG_MIN : ℚ) : ℝ) ≤ Real.log (p : ℝ) then
        match writeActionBytes (some a), writePolicyBytes rest with
        | some ab, some rb =>
          some (ab ++ le16 (quantizeLogProb p).toNat ++ rb)
        | _, _ => none
      else none

/-- Byte shape of one kept policy entry: its action code followed by the
little-endian quantized log-probability. -/
noncomputable def keptEntryBytes (e : Move × ℚ) : List Nat :=
  (writeActionBytes (some e.1)).getD [] ++ le16 (quantizeLogProb e.2).toNat

private lemma writePolicyBytes_shape (policy : List (Move × ℚ)) :
    ∀ bs, writePolicyBytes policy = some bs →
      bs = (policy.filter fun e =>
          !decide (e.2 < MIN_PROBABILITY)).flatMap keptEntryBytes ++ [0x00] := by
  induction policy with
  | nil =>
    intro bs hbs
    simp only [writePolicyBytes] at hbs
    simp [← Option.some_inj.mp hbs]
  | cons e rest ih =>
    intro bs hbs
    obtain ⟨a, p⟩ := e
    by_cases hp : p < MIN_PROBABILITY
    · rw [writePolicyBytes, if_pos hp] at hbs
      rw [List.filter_cons_of_neg (by simp [hp])]
      exact ih bs hbs
    · rw [writePolicyBytes, if_neg hp] at hbs
      by_cases hlog : Real.log (p : ℝ) ≤ 0 ∧
          ((LOG_MIN : ℚ) : ℝ) ≤ Real.log (p : ℝ)
      · rw [if_pos hlog] at hbs
        cases hab : writeActionBytes (some a) with
        | none => rw [hab] at hbs; simp at hbs
        | some ab =>
          cases hrb : writePolicyBytes rest with
          | none => rw [hab, hrb] at hbs; simp at hbs
          | some rb =>
            rw [hab, hrb] at hbs
            simp only at hbs
            have hbs2 := (Option.some_inj.mp hbs).symm
            rw [List.filter_cons_of_pos (by simp [hp])]
            rw [hbs2, ih rb hrb]
            simp [keptEntryBytes, hab, List.append_assoc]
      · rw [if_neg hlog] at hbs
        simp at hbs

private lemma writePolicyBytes_assert_fail (l1 l2 : List (Move × ℚ))
    (a : Move) (p : ℚ) (hkeep : ¬ p < MIN_PROBABILITY)
    (hlog : ¬ (Real.log (p : ℝ) ≤ 0 ∧
      ((LOG_MIN : ℚ) : ℝ) ≤ Real.log (p : ℝ))) :
    writePolicyBytes (l1 ++ (a, p) :: l2) = none := by
  induction l1 with
  | nil =>
    rw [List.nil_append, writePolicyBytes, if_neg hkeep, if_neg hlog]
  | cons e t ih =>
    obtain ⟨b, q⟩ := e
    rw [List.cons_append, writePolicyBytes]
    by_cases hq : q < MIN_PROBABILITY
    · rw [if_pos hq]
      exact ih
    · rw [if_neg hq]
      by_cases hlq : Real.log (q : ℝ) ≤ 0 ∧
          ((LOG_MIN : ℚ) : ℝ) ≤ Real.log (q : ℝ)
      · rw [if_pos hlq, ih]
        cases writeActionBytes (some b) <;> rfl
      · rw [if_neg hlq]

/-- C6: a policy entry with probability below `MIN_PROBABILITY` is
dropped entirely — no bytes for it appear in the stream — every other
entry is written as its two-byte action code followed by the
little-endian 16-bit value `round((ln p / LOG_MIN) * 65535)`, with
`ln p` required (assertion, modelled as `none`) to lie in
`[LOG_MIN, 0]`, and the policy is terminated by the single sentinel
byte with no trailing probability bytes. -/
theorem C6_policy_pruning (pre post : List (Move × ℚ)) (a : Move) (p : ℚ)
    (hdrop : p < MIN_PROBABILITY) :
    writePolicyBytes (pre ++ (a, p) :: post) =
      writePolicyBytes (pre ++ post) ∧
    (∀ bs, writePolicyBytes (pre ++ post) = some bs →
      bs = ((pre ++ post).filter fun e =>
          !decide (e.2 < MIN_PROBABILITY)).flatMap keptEntryBytes ++
        [0x00]) ∧
    ∀ l1 l2 a2 (p2 : ℚ), ¬ p2 < MIN_PROBABILITY →
      ¬ (Real.log (p2 : ℝ) ≤ 0 ∧
        ((LOG_MIN : ℚ) : ℝ) ≤ Real.log (p2 : ℝ)) →
      writePolicyBytes (l1 ++ (a2, p2) :: l2) = none := by
  refine ⟨?_, writePolicyBytes_shape (pre ++ post),
    fun l1 l2 a2 p2 h1 h2 => writePolicyBytes_assert_fail l1 l2 a2 p2 h1 h2⟩
  induction pre with
  | nil =>
    simp only [List.nil_append]
    rw [writePolicyBytes, if_pos hdrop]
  | cons e pre2 ih =>
    obtain ⟨b, q⟩ := e
    simp only [List.cons_append]
    rw [writePolicyBytes]
    conv_rhs => rw [writePolicyBytes]
    by_cases hq : q < MIN_PROBABILITY
    · rw [if_pos hq, if_pos hq]
      exact ih
    · rw [if_neg hq, if_neg hq]
      by_cases hlog : Real.log (q : ℝ) ≤ 0 ∧
          ((LOG_MIN : ℚ) : ℝ) ≤ Real.log (q : ℝ)
      · rw [if_pos hlog, if_pos hlog, ih]
      · rw [if_neg hlog, if_neg hlog]

/-- Witness for C6: a dropped concrete entry between kept context, and
the sentinel-only shape of the empty policy. -/
theorem C6_policy_pruning_witness :
    writePolicyBytes
        [(⟨⟨0, 0⟩, .Place .Flat⟩, (1 : ℚ)),
          (⟨⟨1, 0⟩, .Place .Wall⟩, 1 / 1000000)] =
      writePolicyBytes [(⟨⟨0, 0⟩, .Place .Flat⟩, (1 : ℚ))] ∧
    ([0x00] : List Nat) = (([] : List (Move × ℚ)).filter fun e =>
        !decide (e.2 < MIN_PROBABILITY)).flatMap keptEntryBytes ++
      [0x00] ∧
    writePolicyBytes [(⟨⟨0, 0⟩, .Place .Cap⟩, (2 : ℚ))] = none :=
  ⟨(C6_policy_pruning [(⟨⟨0, 0⟩, .Place .Flat⟩, (1 : ℚ))] []
      ⟨⟨1, 0⟩, .Place .Wall⟩ (1 / 1000000)
      (by norm_num [MIN_PROBABILITY])).1,
   (C6_policy_pruning [] [] ⟨⟨1, 0⟩, .Place .Wall⟩ (1 / 1000000)
      (by norm_num [MIN_PROBABILITY])).2.1 [0x00] rfl,
   (C6_policy_pruning [] [] ⟨⟨1, 0⟩, .Place .Wall⟩ (1 / 1000000)
      (by norm_num [MIN_PROBABILITY])).2.2 [] [] ⟨⟨0, 0⟩, .Place .Cap⟩ 2
      (by norm_num [MIN_PROBABILITY])
      (by
        rintro ⟨h1, h2⟩
        have : (0 : ℝ) < Real.log ((2 : ℚ) : ℝ) := by
          rw [show (((2 : ℚ) : ℝ)) = (2 : ℝ) by norm_num]
          exact Real.log_pos (by norm_num)
        linarith)⟩

/-- Delta-match test, from `compress.rs` lines 99 to 106: the candidate
is played on a copy of the previous state (the external move applier
`play` is a parameter), the copy's reversibility counter is overwritten
with the target's (it is not stored in the TPS), and the copy's board
field — only the board field — is compared with the target's board. -/
def deltaMatches (play : Game → Move → Game) (prev target : Game)
    (a : Move) : Bool :=
  let next := play prev a
  let next2 := { next with reversiblePlies := target.reversiblePlies }
  next2.board == target.board

/-- Delta predictor, from `compress.rs`: scan the buffered legal moves of
the previous position in order and accept the first match. -/
def findRelativeAction (play : Game → Move → Game) (prev target : Game)
    (buffer : List Move) : Option Move :=
  buffer.find? (deltaMatches play prev target)

/-- Bytes of the state part of one entry, from `compress.rs`: the action
code of the found relative move, or the sentinel byte followed by the
full board serialization of the target. -/
def entryStateBytes (play : Game → Move → Game) (prev : Game)
    (buffer : List Move) (target : Game) : Option (List Nat) :=
  match findRelativeAction play prev target buffer with
  | some a => writeActionBytes (some a)
  | none => do
    let ab ← writeActionBytes none
    let sb ← writeStateBytes target
    some (ab ++ sb)

/-- The state part of decoding one entry, from the `decompress` loop: a
relative action is played on the carried current position; the sentinel
is followed by a full board state that replaces it. -/
def decodeEntryState (play : Game → Move → Game) (n : Nat) (cur : Game)
    (bytes : List Nat) : Option (Game × List Nat) := do
  let (act?, rest) ← readActionBytes bytes
  match act? with
  | some a => some (play cur a, rest)
  | none => readStateBytes n rest

/-- A concrete stand-in for the external move applier, used to exhibit
behaviour of the delta predictor on specific inputs: playing a move
sets the addressed square to a lone flat owned by the mover and flips
the side to move, as the real engine does for a flat placement. -/
def playStub (s : Game) (a : Move) : Game :=
  ⟨s.board.set a.square.col (some ⟨.Flat, [s.toMove]⟩), !s.toMove,
    s.reversiblePlies⟩

/-- C3 counterexample: the delta predictor accepts a candidate whose
play result agrees with the target on every square but differs from it
in the side to move, so the comparison does not require side-to-move
agreement, contrary to the claim. -/
theorem C3_counterexample :
    findRelativeAction playStub ⟨[none], true, 0⟩
        ⟨[some ⟨.Flat, [true]⟩], true, 0⟩ [⟨⟨0, 0⟩, .Place .Flat⟩] =
      some ⟨⟨0, 0⟩, .Place .Flat⟩ ∧
    (playStub ⟨[none], true, 0⟩ ⟨⟨0, 0⟩, .Place .Flat⟩).toMove ≠
      (⟨[some ⟨.Flat, [true]⟩], true, 0⟩ : Game).toMove := by
  constructor
  · rfl
  · decide

/-- C3 as amended: the delta predictor scans the previous position's
legal-move list in order, applies each candidate to a copy of the
previous position, and accepts the first candidate whose resulting board
contents equal the target's; the reversibility counter is overwritten
before the comparison and the side to move is not compared at all. -/
theorem C3_first_match (play : Game → Move → Game) (prev target : Game)
    (l1 l2 : List Move) (a : Move)
    (hfirst : ∀ b ∈ l1, (play prev b).board ≠ target.board)
    (hmatch : (play prev a).board = target.board) :
    findRelativeAction play prev target (l1 ++ a :: l2) = some a ∧
    (∀ buffer c, findRelativeAction play prev target buffer = some c →
      c ∈ buffer ∧ (play prev c).board = target.board) ∧
    (∀ c, deltaMatches play prev target c =
      ((play prev c).board == target.board)) := by
  refine ⟨?_, ?_, fun c => rfl⟩
  · induction l1 with
    | nil =>
      simp only [List.nil_append, findRelativeAction]
      exact List.find?_cons_of_pos _ (beq_iff_eq.mpr hmatch)
    | cons b t ih =>
      simp only [List.cons_append, findRelativeAction]
      rw [List.find?_cons_of_neg]
      · exact ih fun x hx => hfirst x (by simp [hx])
      · have hb := hfirst b (by simp)
        simp only [deltaMatches]
        exact fun hc => hb (beq_iff_eq.mp hc)
  · intro buffer c hc
    have h1 := List.mem_of_find?_eq_some hc
    have h2 := List.find?_some hc
    exact ⟨h1, beq_iff_eq.mp h2⟩

/-- Witness for C3 as amended: the stub applier, a singleton move list
and the position the move actually produces. -/
theorem C3_first_match_witness :
    findRelativeAction playStub ⟨[none], true, 0⟩
        ⟨[some ⟨.Flat, [true]⟩], false, 7⟩ [⟨⟨0, 0⟩, .Place .Flat⟩] =
      some ⟨⟨0, 0⟩, .Place .Flat⟩ :=
  (C3_first_match playStub ⟨[none], true, 0⟩ ⟨[some ⟨.Flat, [true]⟩], false, 7⟩
    [] [] ⟨⟨0, 0⟩, .Place .Flat⟩ (by simp) (by decide)).1

/-- C2 counterexample: a target position that is not reachable from the
previous position by any buffered legal move (board and side to move
both matching) is nevertheless encoded as a relative entry, because the
predictor compares board contents only — so the claim that
unreachability forces an absolute entry fails. -/
theorem C2_counterexample :
    (∀ m2 ∈ [(⟨⟨0, 0⟩, .Place .Flat⟩ : Move)],
      ¬ ((playStub ⟨[none], true, 0⟩ m2).board =
          (⟨[some ⟨.Flat, [true]⟩], true, 0⟩ : Game).board ∧
        (playStub ⟨[none], true, 0⟩ m2).toMove =
          (⟨[some ⟨.Flat, [true]⟩], true, 0⟩ : Game).toMove)) ∧
    entryStateBytes playStub ⟨[none], true, 0⟩ [⟨⟨0, 0⟩, .Place .Flat⟩]
        ⟨[some ⟨.Flat, [true]⟩], true, 0⟩ = some [0xFF, 64] := by
  constructor
  · decide
  · rfl

/-- C2 as amended: if the target B is reachable from A by exactly one
buffered legal move (and the external applier flips the side to move, as
the engine does), the encoder emits a relative entry holding exactly
that move's two-byte action code, and the decoder, applying the move to
its current position A, reconstructs a position board-equal to B; if no
buffered move yields B's board contents (reachability judged on the
board alone), the encoder emits an absolute entry — the sentinel byte
followed by the board serialization of B — and decoding it reproduces a
position board-equal to B regardless of the decoder's current
position. -/
theorem C2_entry_encoding (play : Game → Move → Game) (n : Nat)
    (A B : Game) (buffer : List Move) (rest : List Nat)
    (hflip : ∀ s a, (play s a).toMove = !s.toMove) :
    (∀ m, m ∈ buffer → (play A m).board = B.board →
      (play A m).toMove = B.toMove → m.Valid →
      (∀ m2 ∈ buffer, (play A m2).board = B.board →
        (play A m2).toMove = B.toMove → m2 = m) →
      ∃ b1 b2, entryStateBytes play A buffer B = some [b1, b2] ∧
        writeActionBytes (some m) = some [b1, b2] ∧
        decodeEntryState play n A ([b1, b2] ++ rest) =
          some (play A m, rest) ∧
        (play A m).board = B.board ∧ (play A m).toMove = B.toMove) ∧
    ((∀ m2 ∈ buffer, (play A m2).board ≠ B.board) →
      B.board.length = n * n → (∀ sq ∈ B.board, SquareOk sq) →
      ∃ sb g2, entryStateBytes play A buffer B = some (0x00 :: sb) ∧
        (∀ cur, decodeEntryState play n cur ((0x00 :: sb) ++ rest) =
          some (g2, rest)) ∧
        g2.board = B.board ∧ g2.toMove = B.toMove) := by
  constructor
  · intro m hm hb ht hv huniq
    have hfound : findRelativeAction play A B buffer = some m := by
      cases hfind : buffer.find? (deltaMatches play A B) with
      | none =>
        exfalso
        have hnone := List.find?_eq_none.mp hfind m hm
        exact hnone (beq_iff_eq.mpr hb)
      | some c =>
        have hcb0 := List.find?_some hfind
        have hcb1 : ((play A c).board == B.board) = true := hcb0
        have hcb : (play A c).board = B.board := beq_iff_eq.mp hcb1
        have hct : (play A c).toMove = B.toMove := by
          rw [hflip, ← hflip A m, ht]
        have := huniq c (List.mem_of_find?_eq_some hfind) hcb hct
        rw [findRelativeAction, hfind, this]
    obtain ⟨b1, b2, hw, _, _, hr⟩ := action_roundtrip_aux m rest hv
    refine ⟨b1, b2, ?_, hw, ?_, hb, ht⟩
    · rw [entryStateBytes, hfound]
      exact hw
    · simp only [decodeEntryState, List.cons_append, List.nil_append, hr,
        Option.bind_eq_bind, Option.some_bind]
  · intro hnone hlen hok
    have hfound : findRelativeAction play A B buffer = none := by
      apply List.find?_eq_none.mpr
      intro x hx
      simp only [deltaMatches]
      intro hc
      exact hnone x hx (beq_iff_eq.mp hc)
    obtain ⟨bb, hbb⟩ := boardBits_isSome B.board hok
    have hw : writeStateBytes B = some (bitsToBytes (B.toMove :: bb)) := by
      simp [writeStateBytes, writeStateBits, hbb]
    have hread := readStateBytes_writeStateBytes n B hlen hok hw rest
    refine ⟨bitsToBytes (B.toMove :: bb), ⟨B.board, B.toMove, 0⟩, ?_, ?_,
      rfl, rfl⟩
    · rw [entryStateBytes, hfound]
      simp [writeActionBytes, hw]
    · intro cur
      simp only [decodeEntryState, List.cons_append, readActionBytes]
      simp [hread]

/-- Witness for C2 as amended: the relative direction at the stub
applier with the one-move successor, and the absolute direction with an
empty move buffer. -/
theorem C2_entry_encoding_witness :
    (∃ b1 b2,
      entryStateBytes playStub ⟨[none], true, 0⟩ [⟨⟨0, 0⟩, .Place .Flat⟩]
          ⟨[some ⟨.Flat, [true]⟩], false, 0⟩ = some [b1, b2] ∧
      writeActionBytes (some ⟨⟨0, 0⟩, .Place .Flat⟩) = some [b1, b2] ∧
      decodeEntryState playStub 3 ⟨[none], true, 0⟩ ([b1, b2] ++ [9]) =
        some (playStub ⟨[none], true, 0⟩ ⟨⟨0, 0⟩, .Place .Flat⟩, [9]) ∧
      (playStub ⟨[none], true, 0⟩ ⟨⟨0, 0⟩, .Place .Flat⟩).board =
        (⟨[some ⟨.Flat, [true]⟩], false, 0⟩ : Game).board ∧
      (playStub ⟨[none], true, 0⟩ ⟨⟨0, 0⟩, .Place .Flat⟩).toMove =
        (⟨[some ⟨.Flat, [true]⟩], false, 0⟩ : Game).toMove) ∧
    (∃ sb g2,
      entryStateBytes playStub ⟨[none], true, 0⟩ []
          ⟨[none, none, none, none, some ⟨.Wall, [false]⟩, none, none, none,
            none], false, 0⟩ = some (0x00 :: sb) ∧
      (∀ cur, decodeEntryState playStub 3 cur ((0x00 :: sb) ++ [9]) =
        some (g2, [9])) ∧
      g2.board = [none, none, none, none, some ⟨.Wall, [false]⟩, none, none,
        none, none] ∧
      g2.toMove = false) := by
  constructor
  · exact (C2_entry_encoding playStub 3 ⟨[none], true, 0⟩
      ⟨[some ⟨.Flat, [true]⟩], false, 0⟩ [⟨⟨0, 0⟩, .Place .Flat⟩] [9]
      (fun _ _ => rfl)).1 ⟨⟨0, 0⟩, .Place .Flat⟩ (by decide) (by decide)
      (by decide) (by decide)
      (by
        intro m2 hm2 _ _
        simpa using hm2)
  · exact (C2_entry_encoding playStub 3 ⟨[none], true, 0⟩
      ⟨[none, none, none, none, some ⟨.Wall, [false]⟩, none, none, none,
        none], false, 0⟩ [] [9] (fun _ _ => rfl)).2
      (by intro m2 hm2 _; simp at hm2) (by decide) (by decide)

/-- One parsed training record, the `Target` of `lib.rs`: the position
parsed from the TPS field, the value, the optional auxiliary scalar
(parsed but never written by the encoder) and the policy. -/
structure Target where
  pos : Game
  value : ℚ
  ube : Option ℚ
  policy : List (Move × ℚ)

/-- Policy validation, from `Target::actions_match_policy` in `lib.rs`:
the policy and the generated legal-move list have equal length and agree
move-by-move, in order. -/
def Target.actionsMatchPolicy (t : Target) (realActions : List Move) :
    Bool :=
  t.policy.length == realActions.length &&
    (t.policy.zip realActions).all fun e => e.1.1 == e.2

open Classical in
/-- One iteration of the `compress` loop, lines 98 to 127 of
`compress.rs`, for one parsed record: the delta decision against the
carried previous state and its buffered legal moves, then the buffer
refill and previous-state update, then the policy validation; an
accepted record emits its entry bytes (`none` marks an assertion
failure), a rejected record emits nothing (`some []`) and only prints a
diagnostic.  The external move generator `moves` and move applier
`play` are parameters. -/
noncomputable def compressStep (play : Game → Move → Game)
    (moves : Game → List Move) (st : Game × List Move) (t : Target) :
    (Game × List Move) × Option (List Nat) :=
  let action := findRelativeAction play st.1 t.pos st.2
  let buffer2 := moves t.pos
  let st2 := (t.pos, buffer2)
  if t.actionsMatchPolicy buffer2 then
    let bytes? : Option (List Nat) := do
      let ab ← writeActionBytes action
      let sb ← if action.isNone then writeStateBytes t.pos else some []
      let vb ← writeValueBytes t.value
      let pb ← writePolicyBytes t.policy
      some (ab ++ sb ++ vb ++ pb)
    (st2, bytes?)
  else (st2, some [])

/-- The whole `compress` loop over the parsed records: concatenation of
the bytes of every accepted record, carrying the previous state and its
legal-move buffer; `none` marks an assertion failure inside a record. -/
noncomputable def compressAll (play : Game → Move → Game)
    (moves : Game → List Move) :
    Game × List Move → List Target → Option (List Nat)
  | _, [] => some []
  | st, t :: ts =>
    match compressStep play moves st t with
    | (st2, some bs) => (compressAll play moves st2 ts).map (bs ++ ·)
    | (_, none) => none

private lemma compressStep_reject (play : Game → Move → Game)
    (moves : Game → List Move) (st : Game × List Move) (t : Target)
    (hmm : t.actionsMatchPolicy (moves t.pos) = false) :
    compressStep play moves st t = ((t.pos, moves t.pos), some []) := by
  rw [compressStep]
  simp only [hmm]
  rfl

private lemma actionsMatchPolicy_iff (policy : List (Move × ℚ))
    (real : List Move) :
    ((policy.length == real.length) &&
        ((policy.zip real).all fun e => e.1.1 == e.2)) = true ↔
      policy.map (·.1) = real := by
  induction policy generalizing real with
  | nil => cases real <;> simp
  | cons e ps ih =>
    cases real with
    | nil => simp
    | cons b bs =>
      have hih := ih bs
      simp only [List.length_cons, List.zip_cons_cons, List.all_cons,
        Bool.and_eq_true, beq_iff_eq, List.map_cons, List.cons.injEq]
        at hih ⊢
      constructor
      · rintro ⟨hl, hb, ha⟩
        exact ⟨hb, hih.mp ⟨by omega, ha⟩⟩
      · rintro ⟨hb, hrest⟩
        have h2 := hih.mpr hrest
        exact ⟨by omega, hb, h2.2⟩

/-- C9: the generated legal-move list is compared element-wise in order
with the moves of the record's policy; on mismatch the record is
rejected — no entry bytes are written for it (only a diagnostic is
printed) — and encoding continues with the next record instead of
failing. -/
theorem C9_policy_validation (t : Target) (real : List Move)
    (play : Game → Move → Game) (moves : Game → List Move)
    (st : Game × List Move) (ts : List Target)
    (hmm : t.actionsMatchPolicy (moves t.pos) = false) :
    (t.actionsMatchPolicy real = true ↔ t.policy.map (·.1) = real) ∧
    compressStep play moves st t = ((t.pos, moves t.pos), some []) ∧
    compressAll play moves st (t :: ts) =
      compressAll play moves (t.pos, moves t.pos) ts := by
  refine ⟨?_, compressStep_reject play moves st t hmm, ?_⟩
  · rw [Target.actionsMatchPolicy]
    exact actionsMatchPolicy_iff t.policy real
  · rw [compressAll, compressStep_reject play moves st t hmm]
    simp

/-- Fixture data for the stream-level witnesses. -/
def sampleMove : Move := ⟨⟨0, 0⟩, .Place .Flat⟩

/-- Fixture position for the stream-level witnesses. -/
def sampleGame : Game := ⟨[none], true, 0⟩

/-- Fixture record whose policy cannot match an empty legal-move list. -/
def sampleTarget : Target := ⟨sampleGame, 0, none, [(sampleMove, 1)]⟩

/-- Fixture move generator returning no legal moves. -/
def noMoves : Game → List Move := fun _ => []

/-- Witness for C9 at the fixture record: its one-entry policy cannot
match the empty legal-move list, so the record contributes no bytes and
compression continues. -/
theorem C9_policy_validation_witness :
    (sampleTarget.actionsMatchPolicy [sampleMove] = true ↔
      sampleTarget.policy.map (·.1) = [sampleMove]) ∧
    compressStep playStub noMoves (sampleGame, [sampleMove]) sampleTarget =
      ((sampleTarget.pos, noMoves sampleTarget.pos), some []) ∧
    compressAll playStub noMoves (sampleGame, [sampleMove])
        [sampleTarget] =
      compressAll playStub noMoves
        (sampleTarget.pos, noMoves sampleTarget.pos) [] :=
  C9_policy_validation sampleTarget [sampleMove] playStub noMoves
    (sampleGame, [sampleMove]) [] rfl

/-- C10: when a record is rejected by the policy validation, the
carried encoder state is not rolled back: whatever the carried state
held before, after the rejected record it holds the rejected record's
position and that position's legal moves — so the next record's
relative-versus-absolute decision is made against the rejected
(unwritten) position rather than the last position actually emitted. -/
theorem C10_state_not_rolled_back (play : Game → Move → Game)
    (moves : Game → List Move) (t t2 : Target)
    (hmm : t.actionsMatchPolicy (moves t.pos) = false) :
    ∀ st : Game × List Move,
      (compressStep play moves st t).1 = (t.pos, moves t.pos) ∧
      (compressStep play moves st t).2 = some [] ∧
      findRelativeAction play (compressStep play moves st t).1.1 t2.pos
          (compressStep play moves st t).1.2 =
        findRelativeAction play t.pos t2.pos (moves t.pos) := by
  intro st
  rw [compressStep_reject play moves st t hmm]
  exact ⟨rfl, rfl, rfl⟩

/-- Witness for C10 at the fixture record, with a carried state that
differs from the rejected record's position. -/
theorem C10_state_not_rolled_back_witness :
    (compressStep playStub noMoves (⟨[some ⟨.Wall, [false]⟩], false, 3⟩,
        [sampleMove]) sampleTarget).1 =
      (sampleTarget.pos, noMoves sampleTarget.pos) ∧
    (compressStep playStub noMoves (⟨[some ⟨.Wall, [false]⟩], false, 3⟩,
        [sampleMove]) sampleTarget).2 = some [] ∧
    findRelativeAction playStub
        (compressStep playStub noMoves (⟨[some ⟨.Wall, [false]⟩], false, 3⟩,
          [sampleMove]) sampleTarget).1.1 sampleTarget.pos
        (compressStep playStub noMoves (⟨[some ⟨.Wall, [false]⟩], false, 3⟩,
          [sampleMove]) sampleTarget).1.2 =
      findRelativeAction playStub sampleTarget.pos sampleTarget.pos
        (noMoves sampleTarget.pos) :=
  C10_state_not_rolled_back playStub noMoves sampleTarget sampleTarget rfl
    (⟨[some ⟨.Wall, [false]⟩], false, 3⟩, [sampleMove])
